import Mathlib

/-!
Verification of `tinyvm_min.cpp`: a minimal assembler (one mnemonic per
line, `#` starts a comment) and a stack-based bytecode interpreter with
four opcodes: READ (0x01), PRINT (0x02), ADD (0x03), HALT (0xFF).

Source lines are modelled as `List Char`; standard input is modelled as a
list of lines, each line a list of character values (`Nat`, masked modulo
256 where the C++ code casts to `unsigned char` or applies `& 0xFF`).
-/

/-- Whitespace characters trimmed by `assemble_lines`
(`find_first_not_of(" \t\r\n")` in the source). -/
def isWS (c : Char) : Bool :=
  c = ' ' || c = '\t' || c = '\r' || c = '\n'

/-- Trim leading and trailing whitespace, as `assemble_lines` does with
`find_first_not_of` / `find_last_not_of` and `substr`. -/
def trimLine (l : List Char) : List Char :=
  ((l.dropWhile isWS).reverse.dropWhile isWS).reverse

/-- The mnemonic table `MNEM`: READ→0x01, PRINT→0x02, ADD→0x03, HALT→0xFF.
Lookup is on the trimmed line, verbatim and case-sensitive. -/
def MNEM (s : List Char) : Option Nat :=
  if s = ['R', 'E', 'A', 'D'] then some 1
  else if s = ['P', 'R', 'I', 'N', 'T'] then some 2
  else if s = ['A', 'D', 'D'] then some 3
  else if s = ['H', 'A', 'L', 'T'] then some 255
  else none

/-- The error thrown by `assemble_lines`: the 1-based line number and the
offending trimmed text (the data interpolated into the `runtime_error`
message `"Linha <i+1>: instrucao invalida: '<line>'"`). -/
structure AsmError where
  lineNo : Nat
  text : List Char
deriving DecidableEq, Repr

/-- The loop body of `assemble_lines`, carrying the 0-based index `i` of
the current line in the original sequence.  Trims the line, skips it when
blank or a `#` comment, otherwise looks it up in `MNEM`; an unknown
mnemonic raises an error with the 1-based line number `i + 1`. -/
def assemble_go : List (List Char) → Nat → Except AsmError (List Nat)
  | [], _ => .ok []
  | raw :: ls, i =>
    if trimLine raw = [] then assemble_go ls (i + 1)
    else if (trimLine raw).head? = some '#' then assemble_go ls (i + 1)
    else
      match MNEM (trimLine raw) with
      | some b =>
        match assemble_go ls (i + 1) with
        | .ok code => .ok (b :: code)
        | .error e => .error e
      | none => .error ⟨i + 1, trimLine raw⟩

/-- `assemble_lines`: translate the source lines into bytecode, or fail on
the first unrecognized mnemonic. -/
def assemble_lines (ls : List (List Char)) : Except AsmError (List Nat) :=
  assemble_go ls 0

/-- A source line is skipped by the assembler when it trims to nothing or
its first non-whitespace character is `#`. -/
def isSkippedLine (l : List Char) : Bool :=
  trimLine l = [] || (trimLine l).head? = some '#'

/-- A source line makes the assembler fail: it is not skipped and its
trimmed text is not in the mnemonic table. -/
def isInvalidLine (l : List Char) : Bool :=
  !(isSkippedLine l) && (MNEM (trimLine l)).isNone

/-- Forget the line number of an assembly error, keeping the offending
text and the success/failure distinction. -/
def stripLineNo : Except AsmError (List Nat) → Except (List Char) (List Nat)
  | .ok code => .ok code
  | .error e => .error e.text

/-- `read_byte_from_stdin`: take one line from standard input.  On EOF or
an empty line the value is 0; otherwise it is the first character of the
line cast to `unsigned char` (modelled as `% 256`).  The second component
is the remaining input. -/
def read_byte_from_stdin : List (List Nat) → Nat × List (List Nat)
  | [] => (0, [])
  | [] :: rest => (0, rest)
  | (b :: _) :: rest => (b % 256, rest)

/-- The result of `run_bytecode`: the returned status, the bytes written
to standard output, and the input lines left unconsumed. -/
structure VMResult where
  status : Nat
  output : List Nat
  remaining : List (List Nat)
deriving DecidableEq, Repr

/-- The interpreter loop of `run_bytecode`.  The instruction pointer only
ever advances by one, so the bytecode still ahead of `ip` is passed as a
list and each iteration consumes its head.  READ pushes the input byte
masked with `& 0xFF`; PRINT pops (status 2 on an empty stack) and emits
the popped value masked with `& 0xFF`; ADD pops two values (status 2 when
fewer than two are present) and pushes their sum masked with `& 0xFF`;
HALT returns status 0 at once; any other byte returns status 3. -/
def run_from : List Nat → List Nat → List (List Nat) → List Nat → VMResult
  | [], _, inp, out => ⟨0, out, inp⟩
  | op :: rest, stack, inp, out =>
    if op = 1 then
      run_from rest ((read_byte_from_stdin inp).1 % 256 :: stack)
        (read_byte_from_stdin inp).2 out
    else if op = 2 then
      match stack with
      | [] => ⟨2, out, inp⟩
      | b :: stack' => run_from rest stack' inp (out ++ [b % 256])
    else if op = 3 then
      match stack with
      | a :: b :: stack' => run_from rest ((a + b) % 256 :: stack') inp out
      | _ => ⟨2, out, inp⟩
    else if op = 255 then ⟨0, out, inp⟩
    else ⟨3, out, inp⟩

/-- `run_bytecode`: execute a bytecode sequence from instruction pointer 0
with an empty stack against the given standard input. -/
def run_bytecode (bc : List Nat) (inp : List (List Nat)) : VMResult :=
  run_from bc [] inp []

deriving instance DecidableEq for Except

example : assemble_lines [['R', 'E', 'A', 'D'], ['H', 'A', 'L', 'T']] = .ok [1, 255] := by decide

example : run_bytecode [1, 2, 255] [[65, 66]] = ⟨0, [65], []⟩ := by decide

example : run_bytecode [3] [] = ⟨2, [], []⟩ := by decide

example : run_bytecode [153] [] = ⟨3, [], []⟩ := by decide

/-! ### Assembler lemmas -/

lemma MNEM_some_cases {l : List Char} {b : Nat} (h : MNEM l = some b) :
    l = ['R', 'E', 'A', 'D'] ∨ l = ['P', 'R', 'I', 'N', 'T']
      ∨ l = ['A', 'D', 'D'] ∨ l = ['H', 'A', 'L', 'T'] := by
  unfold MNEM at h
  split_ifs at h with h1 h2 h3 h4
  · exact Or.inl h1
  · exact Or.inr (Or.inl h2)
  · exact Or.inr (Or.inr (Or.inl h3))
  · exact Or.inr (Or.inr (Or.inr h4))

lemma MNEM_some_ne_nil {l : List Char} {b : Nat} (h : MNEM l = some b) :
    l ≠ [] := by
  rcases MNEM_some_cases h with h' | h' | h' | h' <;> simp [h']

lemma MNEM_some_not_comment {l : List Char} {b : Nat} (h : MNEM l = some b) :
    ¬ l.head? = some '#' := by
  rcases MNEM_some_cases h with h' | h' | h' | h' <;> simp [h']

lemma not_skipped_iff {l : List Char} :
    isSkippedLine l = false
      ↔ trimLine l ≠ [] ∧ ¬ (trimLine l).head? = some '#' := by
  unfold isSkippedLine
  simp

lemma isInvalidLine_iff {l : List Char} :
    isInvalidLine l = true
      ↔ trimLine l ≠ [] ∧ ¬ (trimLine l).head? = some '#'
          ∧ MNEM (trimLine l) = none := by
  unfold isInvalidLine isSkippedLine
  simp [Option.isNone_iff_eq_none, and_assoc]

lemma assemble_go_cons_skip {raw : List Char} (ls : List (List Char)) (i : Nat)
    (h : isSkippedLine raw = true) :
    assemble_go (raw :: ls) i = assemble_go ls (i + 1) := by
  unfold isSkippedLine at h
  simp only [Bool.or_eq_true, decide_eq_true_eq] at h
  simp only [assemble_go]
  rcases h with h' | h'
  · rw [if_pos h']
  · by_cases h0 : trimLine raw = []
    · rw [if_pos h0]
    · rw [if_neg h0, if_pos h']

lemma assemble_go_cons_mnem {raw : List Char} {b : Nat} (ls : List (List Char))
    (i : Nat) (h : MNEM (trimLine raw) = some b) :
    assemble_go (raw :: ls) i
      = (assemble_go ls (i + 1)).map (fun code => b :: code) := by
  simp only [assemble_go]
  rw [if_neg (MNEM_some_ne_nil h), if_neg (MNEM_some_not_comment h), h]
  cases assemble_go ls (i + 1) <;> rfl

lemma assemble_go_cons_invalid {raw : List Char} (ls : List (List Char))
    (i : Nat) (h : isInvalidLine raw = true) :
    assemble_go (raw :: ls) i = .error ⟨i + 1, trimLine raw⟩ := by
  obtain ⟨h1, h2, h3⟩ := isInvalidLine_iff.mp h
  simp only [assemble_go]
  rw [if_neg h1, if_neg h2, h3]

lemma assemble_go_all_valid :
    ∀ (ls : List (List Char)) (i : Nat),
      (∀ l ∈ ls, (MNEM (trimLine l)).isSome = true) →
      assemble_go ls i = .ok (ls.filterMap (fun l => MNEM (trimLine l))) := by
  intro ls
  induction ls with
  | nil => intro i _; rfl
  | cons raw ls ih =>
    intro i h
    obtain ⟨b, hb⟩ := Option.isSome_iff_exists.mp (h raw (by simp))
    rw [assemble_go_cons_mnem ls i hb,
        ih (i + 1) (fun l hl => h l (List.mem_cons_of_mem _ hl))]
    simp [List.filterMap_cons, hb, Except.map]

lemma assemble_go_first_invalid :
    ∀ (ls : List (List Char)) (i : Nat), ls.any isInvalidLine = true →
      ∀ suffix : List (List Char),
        assemble_go (ls.take (ls.findIdx isInvalidLine + 1) ++ suffix) i
          = .error ⟨i + ls.findIdx isInvalidLine + 1,
                    trimLine (ls.getD (ls.findIdx isInvalidLine) [])⟩ := by
  intro ls
  induction ls with
  | nil => intro i h; simp at h
  | cons raw ls ih =>
    intro i h suffix
    by_cases hr : isInvalidLine raw = true
    · have hk : (raw :: ls).findIdx isInvalidLine = 0 := by
        simp [List.findIdx_cons, hr]
      rw [hk]
      simpa using assemble_go_cons_invalid suffix i hr
    · have hr' : isInvalidLine raw = false := by simpa using hr
      have hk : (raw :: ls).findIdx isInvalidLine = ls.findIdx isInvalidLine + 1 := by
        simp [List.findIdx_cons, hr']
      have hany : ls.any isInvalidLine = true := by
        rcases (List.any_eq_true.mp h) with ⟨x, hx, hpx⟩
        rcases List.mem_cons.mp hx with h' | h'
        · exact absurd (h' ▸ hpx) (by simp [hr'])
        · exact List.any_eq_true.mpr ⟨x, h', hpx⟩
      rw [hk]
      have htake : (raw :: ls).take (ls.findIdx isInvalidLine + 1 + 1) ++ suffix
          = raw :: (ls.take (ls.findIdx isInvalidLine + 1) ++ suffix) := by
        simp [List.take_succ_cons]
      rw [htake]
      have hgd : (raw :: ls).getD (ls.findIdx isInvalidLine + 1) []
          = ls.getD (ls.findIdx isInvalidLine) [] := by
        simp [List.getD_cons_succ]
      rw [hgd]
      have harith : i + 1 + ls.findIdx isInvalidLine + 1
          = i + (ls.findIdx isInvalidLine + 1) + 1 := by omega
      -- raw is either skipped or a valid mnemonic
      by_cases hs : isSkippedLine raw = true
      · rw [assemble_go_cons_skip _ i hs, ih (i + 1) hany suffix, harith]
      · have hs' : isSkippedLine raw = false := by simpa using hs
        have hm : ∃ b, MNEM (trimLine raw) = some b := by
          rcases hmm : MNEM (trimLine raw) with _ | b
          · exact absurd (isInvalidLine_iff.mpr
              ⟨(not_skipped_iff.mp hs').1, (not_skipped_iff.mp hs').2, hmm⟩)
              (by simp [hr'])
          · exact ⟨b, rfl⟩
        obtain ⟨b, hb⟩ := hm
        rw [assemble_go_cons_mnem _ i hb, ih (i + 1) hany suffix, harith]
        rfl

lemma stripLineNo_map_congr {A B : Except AsmError (List Nat)}
    (f : List Nat → List Nat) (h : stripLineNo A = stripLineNo B) :
    stripLineNo (A.map f) = stripLineNo (B.map f) := by
  cases A <;> cases B <;>
    simp only [stripLineNo, Except.map] at h ⊢ <;>
    simp_all

lemma assemble_go_filter_skipped :
    ∀ (ls : List (List Char)) (i j : Nat),
      stripLineNo (assemble_go ls i)
        = stripLineNo (assemble_go (ls.filter (fun l => !(isSkippedLine l))) j) := by
  intro ls
  induction ls with
  | nil => intro i j; rfl
  | cons raw ls ih =>
    intro i j
    by_cases hs : isSkippedLine raw = true
    · rw [assemble_go_cons_skip _ i hs]
      have hf : (raw :: ls).filter (fun l => !(isSkippedLine l))
          = ls.filter (fun l => !(isSkippedLine l)) := by
        simp [List.filter_cons, hs]
      rw [hf]
      exact ih (i + 1) j
    · have hs' : isSkippedLine raw = false := by simpa using hs
      have hf : (raw :: ls).filter (fun l => !(isSkippedLine l))
          = raw :: ls.filter (fun l => !(isSkippedLine l)) := by
        simp [List.filter_cons, hs']
      rw [hf]
      obtain ⟨h1, h2⟩ := not_skipped_iff.mp hs'
      rcases hm : MNEM (trimLine raw) with _ | b
      · have hinv : isInvalidLine raw = true := isInvalidLine_iff.mpr ⟨h1, h2, hm⟩
        rw [assemble_go_cons_invalid _ i hinv, assemble_go_cons_invalid _ j hinv]
        rfl
      · rw [assemble_go_cons_mnem _ i hm, assemble_go_cons_mnem _ j hm]
        exact stripLineNo_map_congr _ (ih (i + 1) (j + 1))

/-! ### Assembler claims -/

/-- Claim C1: assembling the four-line program `READ`, `PRINT`, `ADD`,
`HALT` produces exactly the bytes `[0x01, 0x02, 0x03, 0xFF]`; in general,
when every line's trimmed text is a recognized mnemonic, `assemble_lines`
emits for each line the opcode `MNEM` assigns to it, in input-line
order. -/
theorem assemble_maps_mnemonics (ls : List (List Char))
    (h : ∀ l ∈ ls, (MNEM (trimLine l)).isSome = true) :
    assemble_lines ls = .ok (ls.filterMap (fun l => MNEM (trimLine l)))
    ∧ assemble_lines
        [['R', 'E', 'A', 'D'], ['P', 'R', 'I', 'N', 'T'],
         ['A', 'D', 'D'], ['H', 'A', 'L', 'T']]
      = .ok [1, 2, 3, 255] :=
  ⟨assemble_go_all_valid ls 0 h, by decide⟩

/-- Witness for C1 at a concrete input. -/
theorem assemble_maps_mnemonics_witness :
    assemble_lines [['A', 'D', 'D'], ['R', 'E', 'A', 'D']] = .ok [3, 1] := by
  have h := assemble_maps_mnemonics
    [['A', 'D', 'D'], ['R', 'E', 'A', 'D']] (by decide)
  rw [h.1]
  decide

/-- Claim C7: when some line is invalid (trimmed text non-empty, not a
comment, not in the mnemonic table), assembly fails at the first such
line, reporting its 1-based position in the original sequence (blank and
comment lines included in the count) and its trimmed text; lines after it
are never processed — any suffix beyond the first invalid line yields the
very same error. -/
theorem assemble_fail_fast (ls : List (List Char)) (k : Nat)
    (h : ls.any isInvalidLine = true) (hk : k = ls.findIdx isInvalidLine) :
    assemble_lines ls = .error ⟨k + 1, trimLine (ls.getD k [])⟩
    ∧ ∀ suffix : List (List Char),
        assemble_lines (ls.take (k + 1) ++ suffix)
          = .error ⟨k + 1, trimLine (ls.getD k [])⟩ := by
  subst hk
  have hmain := assemble_go_first_invalid ls 0 h
  constructor
  · have := hmain (ls.drop (ls.findIdx isInvalidLine + 1))
    rw [List.take_append_drop] at this
    simpa [assemble_lines] using this
  · intro suffix
    simpa [assemble_lines] using hmain suffix

/-- Witness for C7 at a concrete input: a comment, a valid mnemonic, then
`FOO` at 1-based line 3. -/
theorem assemble_fail_fast_witness :
    assemble_lines [['#', 'c'], ['A', 'D', 'D'], ['F', 'O', 'O'], ['H', 'A', 'L', 'T']]
      = .error ⟨3, ['F', 'O', 'O']⟩ := by
  have h := assemble_fail_fast
    [['#', 'c'], ['A', 'D', 'D'], ['F', 'O', 'O'], ['H', 'A', 'L', 'T']]
    2 (by decide) (by decide)
  simpa using h.1

/-- Claim C8: deleting the lines that are blank after trimming and the
lines whose first non-whitespace character is `#` changes nothing about
the assembler's result except the line number carried by an error:
success/failure, the produced bytes and the offending text all agree. -/
theorem assemble_skip_invariance (ls : List (List Char)) :
    stripLineNo (assemble_lines ls)
      = stripLineNo (assemble_lines (ls.filter (fun l => !(isSkippedLine l)))) :=
  assemble_go_filter_skipped ls 0 0

/-! ### Interpreter lemmas -/

lemma run_from_nil (stack : List Nat) (inp : List (List Nat)) (out : List Nat) :
    run_from [] stack inp out = ⟨0, out, inp⟩ := rfl

lemma run_from_read (rest stack : List Nat) (inp : List (List Nat)) (out : List Nat) :
    run_from (1 :: rest) stack inp out
      = run_from rest ((read_byte_from_stdin inp).1 % 256 :: stack)
          (read_byte_from_stdin inp).2 out := rfl

lemma run_from_print_nil (rest : List Nat) (inp : List (List Nat)) (out : List Nat) :
    run_from (2 :: rest) [] inp out = ⟨2, out, inp⟩ := rfl

lemma run_from_print_cons (rest : List Nat) (b : Nat) (stack : List Nat)
    (inp : List (List Nat)) (out : List Nat) :
    run_from (2 :: rest) (b :: stack) inp out
      = run_from rest stack inp (out ++ [b % 256]) := rfl

lemma run_from_add_nil (rest : List Nat) (inp : List (List Nat)) (out : List Nat) :
    run_from (3 :: rest) [] inp out = ⟨2, out, inp⟩ := rfl

lemma run_from_add_one (rest : List Nat) (a : Nat) (inp : List (List Nat)) (out : List Nat) :
    run_from (3 :: rest) [a] inp out = ⟨2, out, inp⟩ := rfl

lemma run_from_add_two (rest : List Nat) (a b : Nat) (stack : List Nat)
    (inp : List (List Nat)) (out : List Nat) :
    run_from (3 :: rest) (a :: b :: stack) inp out
      = run_from rest ((a + b) % 256 :: stack) inp out := rfl

lemma run_from_halt (rest stack : List Nat) (inp : List (List Nat)) (out : List Nat) :
    run_from (255 :: rest) stack inp out = ⟨0, out, inp⟩ := rfl

lemma run_from_unknown (op : Nat) (rest stack : List Nat) (inp : List (List Nat))
    (out : List Nat) (h1 : op ≠ 1) (h2 : op ≠ 2) (h3 : op ≠ 3) (h4 : op ≠ 255) :
    run_from (op :: rest) stack inp out = ⟨3, out, inp⟩ := by
  simp only [run_from]
  rw [if_neg h1, if_neg h2, if_neg h3, if_neg h4]

lemma run_from_status_cases :
    ∀ (bc stack : List Nat) (inp : List (List Nat)) (out : List Nat),
      (run_from bc stack inp out).status = 0
        ∨ (run_from bc stack inp out).status = 2
        ∨ (run_from bc stack inp out).status = 3 := by
  intro bc
  induction bc with
  | nil => intro stack inp out; exact Or.inl rfl
  | cons op rest ih =>
    intro stack inp out
    by_cases h1 : op = 1
    · subst h1
      rw [run_from_read]
      exact ih ..
    by_cases h2 : op = 2
    · subst h2
      cases stack with
      | nil => exact Or.inr (Or.inl rfl)
      | cons b stack =>
        rw [run_from_print_cons]
        exact ih ..
    by_cases h3 : op = 3
    · subst h3
      match stack with
      | [] => exact Or.inr (Or.inl rfl)
      | [a] => exact Or.inr (Or.inl rfl)
      | a :: b :: stack =>
        rw [run_from_add_two]
        exact ih ..
    by_cases h4 : op = 255
    · subst h4
      exact Or.inl rfl
    · rw [run_from_unknown op rest stack inp out h1 h2 h3 h4]
      exact Or.inr (Or.inr rfl)

lemma run_from_append_halt :
    ∀ (p : List Nat) (s stack : List Nat) (inp : List (List Nat)) (out : List Nat),
      run_from (p ++ 255 :: s) stack inp out = run_from (p ++ [255]) stack inp out := by
  intro p
  induction p with
  | nil => intro s stack inp out; rfl
  | cons op p ih =>
    intro s stack inp out
    rw [List.cons_append, List.cons_append]
    by_cases h1 : op = 1
    · subst h1
      rw [run_from_read, run_from_read]
      exact ih ..
    by_cases h2 : op = 2
    · subst h2
      cases stack with
      | nil => rw [run_from_print_nil, run_from_print_nil]
      | cons b stack =>
        rw [run_from_print_cons, run_from_print_cons]
        exact ih ..
    by_cases h3 : op = 3
    · subst h3
      match stack with
      | [] => rw [run_from_add_nil, run_from_add_nil]
      | [a] => rw [run_from_add_one, run_from_add_one]
      | a :: b :: stack =>
        rw [run_from_add_two, run_from_add_two]
        exact ih ..
    by_cases h4 : op = 255
    · subst h4
      rw [run_from_halt, run_from_halt]
    · rw [run_from_unknown op _ stack inp out h1 h2 h3 h4,
          run_from_unknown op _ stack inp out h1 h2 h3 h4]

/-- A configuration of the interpreter loop: the bytecode still ahead of
the instruction pointer, the stack, the pending input and the output
produced so far. -/
structure VMConfig where
  bc : List Nat
  stack : List Nat
  input : List (List Nat)
  output : List Nat
deriving DecidableEq, Repr

/-- One non-terminating iteration of the interpreter loop, mirroring the
recursive calls of `run_from` (the terminating branches — end of
bytecode, underflow, HALT, unknown opcode — make no step). -/
inductive VMStep : VMConfig → VMConfig → Prop
  | read (rest stack : List Nat) (inp : List (List Nat)) (out : List Nat) :
      VMStep ⟨1 :: rest, stack, inp, out⟩
        ⟨rest, (read_byte_from_stdin inp).1 % 256 :: stack,
         (read_byte_from_stdin inp).2, out⟩
  | print (rest : List Nat) (b : Nat) (stack : List Nat)
      (inp : List (List Nat)) (out : List Nat) :
      VMStep ⟨2 :: rest, b :: stack, inp, out⟩
        ⟨rest, stack, inp, out ++ [b % 256]⟩
  | add (rest : List Nat) (a b : Nat) (stack : List Nat)
      (inp : List (List Nat)) (out : List Nat) :
      VMStep ⟨3 :: rest, a :: b :: stack, inp, out⟩
        ⟨rest, (a + b) % 256 :: stack, inp, out⟩

lemma VMStep_run_from {c c' : VMConfig} (h : VMStep c c') :
    run_from c.bc c.stack c.input c.output
      = run_from c'.bc c'.stack c'.input c'.output := by
  cases h with
  | read rest stack inp out => exact run_from_read ..
  | print rest b stack inp out => exact run_from_print_cons ..
  | add rest a b stack inp out => exact run_from_add_two ..

lemma VMStep_preserves_range {c c' : VMConfig} (h : VMStep c c')
    (hc : ∀ v ∈ c.stack, v < 256) : ∀ v ∈ c'.stack, v < 256 := by
  cases h with
  | read rest stack inp out =>
    intro v hv
    rcases List.mem_cons.mp hv with h' | h'
    · exact h' ▸ Nat.mod_lt _ (by decide)
    · exact hc v h'
  | print rest b stack inp out =>
    intro v hv
    exact hc v (List.mem_cons_of_mem _ hv)
  | add rest a b stack inp out =>
    intro v hv
    rcases List.mem_cons.mp hv with h' | h'
    · exact h' ▸ Nat.mod_lt _ (by decide)
    · exact hc v (List.mem_cons_of_mem _ (List.mem_cons_of_mem _ h'))

/-- A fuel-bounded version of the interpreter loop: `none` when the fuel
runs out before the loop returns, otherwise the same result as
`run_from`.  One unit of fuel is one loop iteration (one fetched byte). -/
def run_fuel : Nat → List Nat → List Nat → List (List Nat) → List Nat → Option VMResult
  | _, [], _, inp, out => some ⟨0, out, inp⟩
  | 0, _ :: _, _, _, _ => none
  | fuel + 1, op :: rest, stack, inp, out =>
    if op = 1 then
      run_fuel fuel rest ((read_byte_from_stdin inp).1 % 256 :: stack)
        (read_byte_from_stdin inp).2 out
    else if op = 2 then
      match stack with
      | [] => some ⟨2, out, inp⟩
      | b :: stack' => run_fuel fuel rest stack' inp (out ++ [b % 256])
    else if op = 3 then
      match stack with
      | a :: b :: stack' => run_fuel fuel rest ((a + b) % 256 :: stack') inp out
      | _ => some ⟨2, out, inp⟩
    else if op = 255 then some ⟨0, out, inp⟩
    else some ⟨3, out, inp⟩

lemma run_fuel_unknown (fuel op : Nat) (rest stack : List Nat)
    (inp : List (List Nat)) (out : List Nat)
    (h1 : op ≠ 1) (h2 : op ≠ 2) (h3 : op ≠ 3) (h4 : op ≠ 255) :
    run_fuel (fuel + 1) (op :: rest) stack inp out = some ⟨3, out, inp⟩ := by
  simp only [run_fuel]
  rw [if_neg h1, if_neg h2, if_neg h3, if_neg h4]

lemma run_fuel_spec :
    ∀ (bc : List Nat) (fuel : Nat), bc.length ≤ fuel →
      ∀ (stack : List Nat) (inp : List (List Nat)) (out : List Nat),
        run_fuel fuel bc stack inp out = some (run_from bc stack inp out) := by
  intro bc
  induction bc with
  | nil => intro fuel _ stack inp out; cases fuel <;> rfl
  | cons op rest ih =>
    intro fuel hfuel stack inp out
    match fuel with
    | 0 => exact absurd hfuel (by simp)
    | fuel + 1 =>
      have hrest : rest.length ≤ fuel := by
        simpa [Nat.succ_le_succ_iff] using hfuel
      by_cases h1 : op = 1
      · subst h1
        rw [run_from_read]
        exact ih fuel hrest ..
      by_cases h2 : op = 2
      · subst h2
        cases stack with
        | nil => rfl
        | cons b stack =>
          rw [run_from_print_cons]
          exact ih fuel hrest ..
      by_cases h3 : op = 3
      · subst h3
        match stack with
        | [] => rfl
        | [a] => rfl
        | a :: b :: stack =>
          rw [run_from_add_two]
          exact ih fuel hrest ..
      by_cases h4 : op = 255
      · subst h4
        rfl
      · rw [run_fuel_unknown fuel op rest stack inp out h1 h2 h3 h4,
            run_from_unknown op rest stack inp out h1 h2 h3 h4]

/-! ### Interpreter claims -/

/-- Claim C2: the interpreter returns exactly one of the three distinct
statuses 0 (normal completion), 2 (stack underflow on PRINT or ADD) and
3 (unknown opcode), and no two of these conditions share a status. -/
theorem vm_status_trichotomy :
    (∀ (bc : List Nat) (inp : List (List Nat)),
        (run_bytecode bc inp).status = 0 ∨ (run_bytecode bc inp).status = 2
          ∨ (run_bytecode bc inp).status = 3)
    ∧ (∀ (rest : List Nat) (inp : List (List Nat)) (out : List Nat),
        run_from (2 :: rest) [] inp out = ⟨2, out, inp⟩)
    ∧ (∀ (rest : List Nat) (inp : List (List Nat)) (out : List Nat),
        run_from (3 :: rest) [] inp out = ⟨2, out, inp⟩)
    ∧ (∀ (rest : List Nat) (a : Nat) (inp : List (List Nat)) (out : List Nat),
        run_from (3 :: rest) [a] inp out = ⟨2, out, inp⟩)
    ∧ (∀ (op : Nat) (rest stack : List Nat) (inp : List (List Nat)) (out : List Nat),
        op ≠ 1 → op ≠ 2 → op ≠ 3 → op ≠ 255 →
        run_from (op :: rest) stack inp out = ⟨3, out, inp⟩)
    ∧ ((0 : Nat) ≠ 2 ∧ (0 : Nat) ≠ 3 ∧ (2 : Nat) ≠ 3) := by
  refine ⟨fun bc inp => run_from_status_cases bc [] inp [],
    fun rest inp out => rfl, fun rest inp out => rfl,
    fun rest a inp out => rfl,
    fun op rest stack inp out h1 h2 h3 h4 =>
      run_from_unknown op rest stack inp out h1 h2 h3 h4,
    by decide, by decide, by decide⟩

/-- Witness for C2 at a concrete input: fetching the unrecognized byte
0x09 yields status 3. -/
theorem vm_status_trichotomy_witness :
    run_from [9] [] [] [] = ⟨3, [], []⟩ :=
  vm_status_trichotomy.2.2.2.2.1 9 [] [] [] []
    (by decide) (by decide) (by decide) (by decide)

/-- Claim C3: READ pushes 0 when the input is exhausted or the next line
is empty, and otherwise the first character of the line masked to 0–255;
in every case it consumes exactly one line (when one is available) and
discards the rest of that line. -/
theorem read_consumes_one_line :
    read_byte_from_stdin [] = (0, [])
    ∧ (∀ t, read_byte_from_stdin ([] :: t) = (0, t))
    ∧ (∀ (b : Nat) (bs : List Nat) (t : List (List Nat)),
        read_byte_from_stdin ((b :: bs) :: t) = (b % 256, t))
    ∧ (∀ inp, (read_byte_from_stdin inp).2 = inp.tail)
    ∧ (∀ inp, (read_byte_from_stdin inp).1 % 256 < 256)
    ∧ (∀ (rest stack : List Nat) (inp : List (List Nat)) (out : List Nat),
        run_from (1 :: rest) stack inp out
          = run_from rest ((read_byte_from_stdin inp).1 % 256 :: stack)
              inp.tail out) := by
  have htail : ∀ inp : List (List Nat), (read_byte_from_stdin inp).2 = inp.tail := by
    intro inp
    rcases inp with _ | ⟨l, t⟩
    · rfl
    · rcases l with _ | ⟨b, bs⟩ <;> rfl
  refine ⟨rfl, fun t => rfl, fun b bs t => rfl, htail,
    fun inp => Nat.mod_lt _ (by decide), ?_⟩
  intro rest stack inp out
  rw [run_from_read, htail inp]

/-- Claim C4: ADD with at least two stack elements pops both and pushes
their sum modulo 256; with 200 and 100 on top the pushed value is 44. -/
theorem add_wraps_mod_256 :
    (∀ (rest : List Nat) (a b : Nat) (stack : List Nat)
        (inp : List (List Nat)) (out : List Nat),
        run_from (3 :: rest) (a :: b :: stack) inp out
          = run_from rest ((a + b) % 256 :: stack) inp out)
    ∧ (∀ a b : Nat, (a + b) % 256 < 256)
    ∧ (200 + 100) % 256 = 44
    ∧ (∀ (rest stack : List Nat) (inp : List (List Nat)) (out : List Nat),
        run_from (3 :: rest) (200 :: 100 :: stack) inp out
          = run_from rest (44 :: stack) inp out) := by
  refine ⟨fun rest a b stack inp out => run_from_add_two ..,
    fun a b => Nat.mod_lt _ (by decide), by decide, ?_⟩
  intro rest stack inp out
  rw [run_from_add_two]

/-- Claim C5: running off the end of the bytecode is success: whatever
the stack, pending input and output, the status is 0; the empty bytecode
returns status 0, no output and consumes no input. -/
theorem run_off_end_success :
    (∀ (stack : List Nat) (inp : List (List Nat)) (out : List Nat),
        run_from [] stack inp out = ⟨0, out, inp⟩)
    ∧ (∀ inp, run_bytecode [] inp = ⟨0, [], inp⟩) :=
  ⟨fun _ _ _ => rfl, fun _ => rfl⟩

/-- Claim C6: HALT returns status 0 immediately with the output and input
as they stand, and the bytes after a HALT are never examined: appending
any suffix after the 0xFF changes nothing about the run. -/
theorem halt_stops_immediately :
    (∀ (rest stack : List Nat) (inp : List (List Nat)) (out : List Nat),
        run_from (255 :: rest) stack inp out = ⟨0, out, inp⟩)
    ∧ (∀ (p s : List Nat) (inp : List (List Nat)),
        run_bytecode (p ++ 255 :: s) inp = run_bytecode (p ++ [255]) inp) :=
  ⟨fun _ _ _ _ => rfl,
   fun p s inp => run_from_append_halt p s [] inp []⟩

/-- Claim C9: from the initial configuration with empty stack, every
reachable configuration of the interpreter loop has all its stack values
in the range 0–255, since READ and ADD mask every pushed value. -/
theorem stack_values_in_range (bc : List Nat) (inp : List (List Nat))
    (c : VMConfig) (h : Relation.ReflTransGen VMStep ⟨bc, [], inp, []⟩ c) :
    ∀ v ∈ c.stack, v < 256 := by
  induction h with
  | refl => intro v hv; simp at hv
  | tail _ hstep ih => exact VMStep_preserves_range hstep ih

/-- Witness for C9: after one READ step on the input line `[300]`, the
single stack value is 44 = 300 mod 256, below 256. -/
theorem stack_values_in_range_witness : (44 : Nat) < 256 :=
  stack_values_in_range [1] [[300]] ⟨[], [44], [], []⟩
    (Relation.ReflTransGen.single (VMStep.read [] [] [[300]] []))
    44 (by simp)

/-- Claim C10: the interpreter terminates, in at most one loop iteration
per bytecode byte: giving the loop `bc.length` units of fuel (one per
iteration) never exhausts the fuel, and reproduces `run_from`. -/
theorem run_terminates_in_length_steps (bc : List Nat) (fuel : Nat)
    (h : bc.length ≤ fuel) (stack : List Nat) (inp : List (List Nat))
    (out : List Nat) :
    run_fuel fuel bc stack inp out = some (run_from bc stack inp out) :=
  run_fuel_spec bc fuel h stack inp out

/-- Witness for C10 at a concrete input. -/
theorem run_terminates_in_length_steps_witness :
    run_fuel 3 [1, 2, 255] [] [[65]] []
      = some (run_from [1, 2, 255] [] [[65]] []) :=
  run_terminates_in_length_steps [1, 2, 255] 3 (by decide) [] [[65]] []
